import Mathlib

/-!
# Verification of the `naan` functional-programming prelude

A shallow embedding of the parts of the `naan` Rust library needed to settle
the specification claims: the currying engine (`fun/curry2.rs`, `fun/curry3.rs`),
the container adapters (`impls/option.rs`, `impls/result.rs`, `impls/vec.rs`,
`impls/hash_map.rs`, `impls/btree_map.rs`, `impls/string.rs`), the traversal
machinery (`traverse.rs` together with the `Traversable` impl for `Vec`), and
the lazy computation engine (`io/suspend.rs`, `io/map.rs`, `io/bind.rs`,
`io/apply.rs`, `io/mod.rs`).

Modelling conventions:
* Rust `Vec<A>` is `List A`; Rust `String` is `List Char` (a string is its
  character sequence, `format!("{a}{b}")` is list append).
* Rust `Result<A, E>` is the inductive `Res E A` below.
* Rust `HashMap<K, V>` / `BTreeMap<K, V>` are association lists
  `List (K × V)` whose key column is duplicate-free (the invariant both Rust
  maps maintain); `collect()` on an iterator of pairs is a left fold of the
  standard-library `insert` (later pairs overwrite earlier ones), and map
  equality is pointwise equality of `lookup`, since iteration order of a
  `HashMap` is unspecified.
* Rust closures in the lazy engine may mutate captured state, so the wrapped
  functions of the `io` nodes are modelled as explicit state transformers
  `σ → α × σ`; a pure Rust closure is one that returns its state unchanged.
-/

namespace Naan

/-! ## Callable / currying engine (`src/fun/curry2.rs`, `src/fun/curry3.rs`)

The Rust `Curry2`/`Curry3` structs carry type-state markers (`Waiting`/`Invkd`,
`Nothing`/`Just`) recording which argument slots are filled; each filled slot
stores the supplied argument (`Curry2` stores it as an `Option` that is
statically known to be `Some` in the `Applied1` state, `Curry3` stores it as a
bare `Just` wrapper).  We model each type-state as its own structure holding
exactly the data present in that state. -/

/-- `curry2::Applied0<F, A, B, C>`: a curried 2-ary function with no argument
supplied yet.  Holds only the original function. -/
structure Curry2A0 (A B C : Type) where
  f : A → B → C

/-- `curry2::Applied1<F, A, B, C>`: a curried 2-ary function whose first
argument has been supplied (the Rust struct's `a: Option<A>` field is `Some`
in this state; `call1` unwraps it). -/
structure Curry2A1 (A B C : Type) where
  f : A → B → C
  a : A

/-- `F2Once::curry` / `Curry2::curry` (src/fun/mod.rs, src/fun/curry2.rs). -/
def curry2 (f : A → B → C) : Curry2A0 A B C := ⟨f⟩

/-- `Applied0::uncurry`: recover the wrapped function. -/
def Curry2A0.uncurry (c : Curry2A0 A B C) : A → B → C := c.f

/-- `F1Once::call1` for `curry2::Applied0`: store the first argument. -/
def Curry2A0.call1 (c : Curry2A0 A B C) (a : A) : Curry2A1 A B C := ⟨c.f, a⟩

/-- `F1Once::call1` for `curry2::Applied1`: invoke the wrapped function with
the stored first argument and the supplied second argument. -/
def Curry2A1.call1 (c : Curry2A1 A B C) (b : B) : C := c.f c.a b

/-- `curry3::Applied0<F, A, B, C, D>`: 3-ary, no argument supplied
(`a` and `b` slots are `Nothing`). -/
structure Curry3A0 (A B C D : Type) where
  f : A → B → C → D

/-- `curry3::Applied1<F, A, B, C, D>`: first argument supplied
(`a` slot is `Just`). -/
structure Curry3A1 (A B C D : Type) where
  f : A → B → C → D
  a : A

/-- `curry3::Applied2<F, A, B, C, D>`: first and second arguments supplied. -/
structure Curry3A2 (A B C D : Type) where
  f : A → B → C → D
  a : A
  b : B

/-- `F3Once::curry` / `Curry3::curry`. -/
def curry3 (f : A → B → C → D) : Curry3A0 A B C D := ⟨f⟩

/-- `curry3::Applied0::uncurry`. -/
def Curry3A0.uncurry (c : Curry3A0 A B C D) : A → B → C → D := c.f

/-- `F1Once::call1` for `curry3::Applied0`. -/
def Curry3A0.call1 (c : Curry3A0 A B C D) (a : A) : Curry3A1 A B C D := ⟨c.f, a⟩

/-- `F1Once::call1` for `curry3::Applied1`. -/
def Curry3A1.call1 (c : Curry3A1 A B C D) (b : B) : Curry3A2 A B C D := ⟨c.f, c.a, b⟩

/-- `F1Once::call1` for `curry3::Applied2`: invoke the wrapped function. -/
def Curry3A2.call1 (c : Curry3A2 A B C D) (cc : C) : D := c.f c.a c.b cc

/-! ## The fallible-result adapter (`src/impls/result.rs`) -/

/-- Rust `Result<A, E>`. -/
inductive Res (E A : Type) where
  | ok (a : A)
  | err (e : E)
deriving DecidableEq, Repr

/-- `FunctorOnce::fmap1 for Result` (`self.map(|a| f.call1(a))`). -/
def Res.fmap (f : A → B) : Res E A → Res E B
  | .ok a => .ok (f a)
  | .err e => .err e

/-- `ApplyOnce::apply1 for Result`: `Ok(f)` maps `f` over the argument,
`Err(e)` short-circuits. -/
def Res.apply1 (ff : Res E (A → B)) (aa : Res E A) : Res E B :=
  match ff with
  | .ok f => aa.fmap f
  | .err e => .err e

/-- `Applicative::pure for Result`. -/
def Res.pure (a : A) : Res E A := .ok a

/-- `MonadOnce::bind1 for Result` (`self.and_then(|a| f.call1(a))`). -/
def Res.bind1 (r : Res E A) (f : A → Res E B) : Res E B :=
  match r with
  | .ok a => f a
  | .err e => .err e

/-! ## The optional-value adapter (`src/impls/option.rs`) -/

/-- `FunctorOnce::fmap1 for Option` (`self.map(|a| f.call1(a))`). -/
def optFmap (f : A → B) : Option A → Option B
  | some a => some (f a)
  | none => none

/-- `MonadOnce::bind1 for Option` (`self.and_then(|a| f.call1(a))`). -/
def optBind (o : Option A) (f : A → Option B) : Option B :=
  match o with
  | some a => f a
  | none => none

/-- `Applicative::pure for Option`. -/
def optPure (a : A) : Option A := some a

/-- `Semigroup::append for Option`: combines two present values with the
element type's `append`, keeps a lone present value, `None` otherwise.
The element-level `append` is passed explicitly (Rust resolves it from the
`A: Semigroup` bound). -/
def optAppend (app : A → A → A) : Option A → Option A → Option A
  | some a, some b => some (app a b)
  | some a, none => some a
  | none, some b => some b
  | none, none => none

/-- `Monoid::identity for Option`. -/
def optIdentity : Option A := none

/-! ## The sequence adapter (`src/impls/vec.rs`) -/

/-- `Functor::fmap for Vec` (`self.into_iter().map(..).collect()`). -/
def vecFmap (f : A → B) (l : List A) : List B := l.map f

/-- `Alt::alt for Vec` (`Vec::append(&mut self, &mut b)`: moves `b`'s
elements onto the end of `self`). `Semigroup::append for Vec` is derived
from this (`deriving!(impl<A> Semigroup for Vec<A> {..Alt})`). -/
def vecAlt (a b : List A) : List A := a ++ b

/-- `Monoid::identity for Vec`, derived from `Default` (the empty vector). -/
def vecIdentity : List A := []

/-- `Applicative::pure for Vec` (`vec![a]`). -/
def vecPure (a : A) : List A := [a]

/-- `Monad::bind for Vec`: the loop
`for i in self { Vec::append(&mut out, &mut f.call(i)) }` starting from an
empty `out`, i.e. a left fold appending `f i` at each step. -/
def vecBind (l : List A) (f : A → List B) : List B :=
  l.foldl (fun out a => out ++ f a) []

/-- `fn append<T>(t: T, mut v: Vec<T>) -> Vec<T>` (src/impls/vec.rs): push
`t` onto the end of `v`.  Its curried form `append1<B>` is the `TF` slot of
`Traversable for Vec`. -/
def vecAppendElem (t : A) (v : List A) : List A := v ++ [t]

/-- `Traversable::traversem1 for Vec` at the applicative `ResultOk<E>`:
`self.foldl(|ap, a| f.call(a).fmap(append.curry()).apply1(ap), pure(vec![]))`.
The curried `append` partially applied to `b` is the function
`fun v => vecAppendElem b v`. -/
def vecTraversem1 (f : A → Res E B) (l : List A) : Res E (List B) :=
  l.foldl
    (fun ap a => Res.apply1 ((f a).fmap fun b => (curry2 vecAppendElem |>.call1 b).call1) ap)
    (Res.pure [])

/-- `Sequence::sequence` (src/traverse.rs): `self.traversem1(|a| a)`. -/
def vecSequence (l : List (Res E A)) : Res E (List A) :=
  vecTraversem1 (fun a => a) l

/-! ## The string adapter (`src/impls/string.rs`).  A Rust `String` is its
character sequence; `format!("{self}{b}")` concatenates the sequences. -/

/-- `Semigroup::append for String`. -/
def strAppend (a b : List Char) : List Char := a ++ b

/-- `Monoid::identity for String`, derived from `Default` (empty string). -/
def strIdentity : List Char := []

/-! ## The map adapters (`src/impls/hash_map.rs`, `src/impls/btree_map.rs`)

Both Rust maps are modelled as association lists with duplicate-free key
columns.  The two adapters' `fmap` / `apply_with` / `alt` bodies are
textually identical (only the storage differs), so one model covers both.
Map equality is pointwise `mapLookup` equality: `HashMap` iteration order is
unspecified, and `BTreeMap` re-sorts by key, so only the key-to-value
mapping is observable. -/

variable {K V A B : Type} [DecidableEq K]

/-- `std` map `insert`: overwrite the value at `k` if the key is present,
otherwise add the entry.  Both `HashMap::insert` and `BTreeMap::insert`
behave this way; `collect()` on an iterator of pairs folds this in. -/
def mapInsert (k : K) (v : V) : List (K × V) → List (K × V)
  | [] => [(k, v)]
  | (k', v') :: rest =>
    if k = k' then (k, v) :: rest else (k', v') :: mapInsert k v rest

/-- `collect::<HashMap<_, _>>()` / `collect::<BTreeMap<_, _>>()` on an
iterator of pairs: insert each pair in order (later pairs overwrite
earlier ones). -/
def mapCollect (l : List (K × V)) : List (K × V) :=
  l.foldl (fun m kv => mapInsert kv.1 kv.2 m) []

/-- `HashMap::get` / `BTreeMap::get`. -/
def mapLookup (k : K) : List (K × V) → Option V
  | [] => none
  | (k', v) :: rest => if k = k' then some v else mapLookup k rest

/-- The key column of a map. -/
def mapKeys (m : List (K × V)) : List K := m.map Prod.fst

/-- `Alt::alt for HashMap` / `for BTreeMap`:
`b.into_iter().chain(self.into_iter()).collect()` — every entry of `b` is
inserted first, then every entry of `self`, so `self`'s value wins on a
shared key.  `Semigroup::append` for both maps delegates to this. -/
def mapAlt (self b : List (K × V)) : List (K × V) :=
  mapCollect (b ++ self)

/-- `Functor::fmap for HashMap` / `for BTreeMap`:
`self.into_iter().map(|(k, a)| (k, f.call(a))).collect()`. -/
def mapFmap (f : A → B) (m : List (K × A)) : List (K × B) :=
  mapCollect (m.map fun kv => (kv.1, f kv.2))

/-- `Apply::apply_with for HashMap` / `for BTreeMap`:
`self.into_iter().filter_map(|(k, f)| as_.get(&k).map(|a| f.call(cloner.call(a))).map(|b| (k, b))).collect()`. -/
def mapApplyWith (fs : List (K × (A → B))) (as_ : List (K × A)) (cloner : A → A) :
    List (K × B) :=
  mapCollect (fs.filterMap fun kf =>
    (mapLookup kf.1 as_).map fun a => (kf.1, kf.2 (cloner a)))

/-! ### Association-list lemmas -/

theorem mapLookup_insert (k k0 : K) (v0 : V) (m : List (K × V)) :
    mapLookup k (mapInsert k0 v0 m) =
      if k = k0 then some v0 else mapLookup k m := by
  induction m with
  | nil => simp [mapInsert, mapLookup]
  | cons hd tl ih =>
    obtain ⟨k', v'⟩ := hd
    by_cases h0 : k0 = k'
    · subst h0
      by_cases hk : k = k0 <;> simp [mapInsert, mapLookup, hk]
    · simp only [mapInsert, if_neg h0, mapLookup]
      by_cases hk : k = k'
      · subst hk
        have hk0 : ¬k = k0 := fun h => h0 h.symm
        simp [mapLookup, hk0]
      · simp [mapLookup, hk, ih]

theorem mapLookup_collect (k : K) (l : List (K × V)) :
    mapLookup k (mapCollect l) = mapLookup k l.reverse := by
  induction l using List.reverseRecOn with
  | nil => simp [mapCollect, mapLookup]
  | append_singleton l kv ih =>
    obtain ⟨k0, v0⟩ := kv
    have hc : mapCollect (l ++ [(k0, v0)]) = mapInsert k0 v0 (mapCollect l) := by
      simp [mapCollect, List.foldl_append]
    rw [hc, mapLookup_insert, List.reverse_append]
    simp [mapLookup, ih]

theorem mapLookup_append (k : K) (l1 l2 : List (K × V)) :
    mapLookup k (l1 ++ l2) =
      match mapLookup k l1 with
      | some v => some v
      | none => mapLookup k l2 := by
  induction l1 with
  | nil => simp [mapLookup]
  | cons hd tl ih =>
    obtain ⟨k', v'⟩ := hd
    by_cases hk : k = k' <;> simp [mapLookup, hk, ih]

theorem mapLookup_eq_none_of_not_mem (k : K) (m : List (K × V))
    (h : k ∉ mapKeys m) : mapLookup k m = none := by
  induction m with
  | nil => simp [mapLookup]
  | cons hd tl ih =>
    obtain ⟨k', v'⟩ := hd
    simp only [mapKeys, List.map_cons, List.mem_cons] at h
    push_neg at h
    simp only [mapLookup, if_neg h.1]
    exact ih (by simpa [mapKeys] using h.2)

theorem mapLookup_reverse_of_nodup (k : K) (m : List (K × V))
    (h : (mapKeys m).Nodup) : mapLookup k m.reverse = mapLookup k m := by
  induction m with
  | nil => simp
  | cons hd tl ih =>
    obtain ⟨k', v'⟩ := hd
    simp only [mapKeys, List.map_cons, List.nodup_cons] at h
    rw [List.reverse_cons, mapLookup_append]
    by_cases hk : k = k'
    · subst hk
      rw [ih h.2, mapLookup_eq_none_of_not_mem _ _ (by simpa [mapKeys] using h.1)]
      simp [mapLookup]
    · rw [ih h.2]
      cases hv : mapLookup k tl <;> simp [mapLookup, hk, hv]

/-! ## The lazy computation engine (`src/io/`)

Each node kind is its own struct, generic over the type(s) of its
predecessor node(s) — exactly the Rust encoding, where `Map<F, X, A, IOX>`
is generic over `IOX: IOLike<X>`.  Rust closures (`F1Once`) may mutate
captured state, so a wrapped function from `α` to `β` is modelled as a state
transformer `α → σ → β × σ` and a zero-argument thunk as `σ → α × σ`.
The `IOLike::exec` trait dispatch is modelled by passing the predecessor's
`exec` function explicitly (the trait dictionary). -/

variable {σ ν νf να μ : Type}

/-- `IO<T>` (src/io/mod.rs): `struct IO<T>(T)`, built with `IO::pure`. -/
structure PureNode (α : Type) where
  val : α

/-- `IOLike::exec for IO<A>`: return the stored value (`self.0`), touching
no state. -/
def PureNode.exec (n : PureNode α) (s : σ) : α × σ := (n.val, s)

/-- `Suspend<F>` (src/io/suspend.rs): wraps a zero-argument thunk. -/
structure Suspend (σ α : Type) where
  thunk : σ → α × σ

/-- `Suspend::exec`: `self.0.call1(())` — invoke the stored thunk once. -/
def Suspend.exec (n : Suspend σ α) (s : σ) : α × σ := n.thunk s

/-- `Map<F, X, A, IOX>` (src/io/map.rs): a function waiting to be applied to
the result of the predecessor node `pred`. -/
structure MapNode (σ α β ν : Type) where
  f : α → σ → β × σ
  pred : ν

/-- `Map::exec`: `self.0.call1(self.1.exec())` — execute the predecessor,
then invoke the wrapped function on its result.  `ex` is the predecessor
type's `IOLike::exec`. -/
def MapNode.exec (ex : ν → σ → α × σ) (n : MapNode σ α β ν) (s : σ) : β × σ :=
  match ex n.pred s with
  | (a, s1) => n.f a s1

/-- `Bind<F, A, B, IOA>` (src/io/bind.rs): a node-producing function waiting
to be applied to the result of the predecessor node.  The function returns a
new computation node of type `μ`. -/
structure BindNode (σ α μ ν : Type) where
  f : α → σ → μ × σ
  pred : ν

/-- `Bind::exec`: `self.0.call1(self.1.exec()).exec()` — execute the
predecessor, invoke the wrapped function on its result to obtain a new node,
and execute that node.  `exPred` / `exSub` are the two `IOLike::exec`
dictionaries. -/
def BindNode.exec (exPred : ν → σ → α × σ) (exSub : μ → σ → β × σ)
    (n : BindNode σ α μ ν) (s : σ) : β × σ :=
  match exPred n.pred s with
  | (a, s1) =>
    match n.f a s1 with
    | (m, s2) => exSub m s2

/-- `Apply<A, B, AB, IOA, IOAB>` (src/io/apply.rs): holds the
function-producing node `ioab` (field `self.0`) and the argument node `ioa`
(field `self.1`).  `ApplySurrogate::apply_ for IOLike` builds
`Apply::new(self, a)`, so the receiver of `apply_` is the function node. -/
structure ApplyNode (σ α β νf να : Type) where
  ioab : νf
  ioa : να

/-- `Apply::exec`: `self.0.exec().call1(self.1.exec())` — execute the
function node first, then the argument node, then invoke the obtained
function on the obtained argument. -/
def ApplyNode.exec (exF : νf → σ → (α → σ → β × σ) × σ) (exA : να → σ → α × σ)
    (n : ApplyNode σ α β νf να) (s : σ) : β × σ :=
  match exF n.ioab s with
  | (g, s1) =>
    match exA n.ioa s1 with
    | (a, s2) => g a s2

/-! ### Instrumentation for the ordering claims

To observe invocation order, the state is a log `List Nat` and every wrapped
thunk / function appends its numeric tag when (and only when) it is
invoked. -/

/-- A thunk that logs its tag `i` and produces `v`. -/
def logThunk (i : Nat) (v : α) : List Nat → α × List Nat :=
  fun s => (v, s ++ [i])

/-- A unary effectful function that logs its tag `i` and applies `g`. -/
def logFn (i : Nat) (g : α → β) : α → List Nat → β × List Nat :=
  fun a s => (g a, s ++ [i])

/-! ## Helper lemmas -/

theorem vecBind_foldl_acc (l : List A) (f : A → List B) (acc : List B) :
    l.foldl (fun out a => out ++ f a) acc = acc ++ vecBind l f := by
  induction l generalizing acc with
  | nil => simp [vecBind]
  | cons x xs ih =>
    simp only [vecBind, List.foldl_cons, List.nil_append]
    rw [ih (acc ++ f x), ih (f x), List.append_assoc]

theorem vecBind_cons (x : A) (xs : List A) (f : A → List B) :
    vecBind (x :: xs) f = f x ++ vecBind xs f := by
  simp only [vecBind, List.foldl_cons, List.nil_append]
  exact vecBind_foldl_acc xs f (f x)

theorem vecBind_append (l1 l2 : List A) (f : A → List B) :
    vecBind (l1 ++ l2) f = vecBind l1 f ++ vecBind l2 f := by
  induction l1 with
  | nil => simp [vecBind]
  | cons x xs ih => simp [vecBind_cons, ih, List.append_assoc]

theorem mapInsert_of_not_mem (k : K) (v : V) (m : List (K × V))
    (h : k ∉ mapKeys m) : mapInsert k v m = m ++ [(k, v)] := by
  induction m with
  | nil => simp [mapInsert]
  | cons hd tl ih =>
    obtain ⟨k', v'⟩ := hd
    simp only [mapKeys, List.map_cons, List.mem_cons] at h
    push_neg at h
    simp only [mapInsert, if_neg h.1, List.cons_append, List.cons.injEq, true_and]
    exact ih (by simpa [mapKeys] using h.2)

theorem mapCollect_of_nodup (m : List (K × V)) (h : (mapKeys m).Nodup) :
    mapCollect m = m := by
  induction m using List.reverseRecOn with
  | nil => simp [mapCollect]
  | append_singleton l kv ih =>
    obtain ⟨k0, v0⟩ := kv
    have hc : mapCollect (l ++ [(k0, v0)]) = mapInsert k0 v0 (mapCollect l) := by
      simp [mapCollect, List.foldl_append]
    simp only [mapKeys, List.map_append, List.map_cons, List.map_nil,
      List.nodup_append] at h
    have hnl : (mapKeys l).Nodup := h.1
    have hk0 : k0 ∉ mapKeys l := by
      intro hmem
      exact h.2.2 hmem (by simp)
    rw [hc, ih hnl, mapInsert_of_not_mem k0 v0 l hk0]

/-! ## Claim theorems -/

/-- C4: for every 2-ary or 3-ary function `f`, `uncurry` applied to
`curry f` returns `f` itself, and supplying all arguments one at a time
through the curried chain (each `call1` yielding the next partially-applied
node, the last one yielding the result) returns the same value as calling
`f` directly with all arguments at once. -/
theorem curry_uncurry_roundtrip :
    (∀ (A B C : Type) (f : A → B → C),
       (curry2 f).uncurry = f ∧
       ∀ (a : A) (b : B), ((curry2 f).call1 a).call1 b = f a b) ∧
    (∀ (A B C D : Type) (f : A → B → C → D),
       (curry3 f).uncurry = f ∧
       ∀ (a : A) (b : B) (c : C), (((curry3 f).call1 a).call1 b).call1 c = f a b c) :=
  ⟨fun _ _ _ _ => ⟨rfl, fun _ _ => rfl⟩,
   fun _ _ _ _ _ => ⟨rfl, fun _ _ _ => rfl⟩⟩

/-- C6: the monad laws hold for the `Option`, `Result` and `Vec` adapters:
`pure(a).bind(f) = f(a)`, `m.bind(pure) = m`, and
`m.bind(f).bind(g) = m.bind(|x| f(x).bind(g))`. -/
theorem monad_laws :
    (∀ (A B C : Type) (a : A) (m : Option A) (f : A → Option B) (g : B → Option C),
       optBind (optPure a) f = f a ∧
       optBind m optPure = m ∧
       optBind (optBind m f) g = optBind m fun x => optBind (f x) g) ∧
    (∀ (E A B C : Type) (a : A) (m : Res E A) (f : A → Res E B) (g : B → Res E C),
       Res.bind1 (Res.pure a) f = f a ∧
       Res.bind1 m Res.pure = m ∧
       Res.bind1 (Res.bind1 m f) g = Res.bind1 m fun x => Res.bind1 (f x) g) ∧
    (∀ (A B C : Type) (a : A) (m : List A) (f : A → List B) (g : B → List C),
       vecBind (vecPure a) f = f a ∧
       vecBind m vecPure = m ∧
       vecBind (vecBind m f) g = vecBind m fun x => vecBind (f x) g) := by
  refine ⟨fun A B C a m f g => ⟨rfl, ?_, ?_⟩,
          fun E A B C a m f g => ⟨rfl, ?_, ?_⟩,
          fun A B C a m f g => ⟨by simp [vecBind, vecPure], ?_, ?_⟩⟩
  · cases m <;> rfl
  · cases m <;> rfl
  · cases m <;> rfl
  · cases m <;> rfl
  · induction m with
    | nil => rfl
    | cons x xs ih => rw [vecBind_cons, ih]; rfl
  · induction m with
    | nil => rfl
    | cons x xs ih =>
      rw [vecBind_cons, vecBind_cons, vecBind_append, ih]

/-- C7: mapping the identity function over any `Vec`, `Option` or `HashMap`
container returns it unchanged (`c.fmap(id) == c`).  For the map adapter the
hypothesis is the duplicate-free-key invariant every Rust `HashMap`
maintains. -/
theorem fmap_identity :
    (∀ (A : Type) (l : List A), vecFmap (fun a => a) l = l) ∧
    (∀ (A : Type) (o : Option A), optFmap (fun a => a) o = o) ∧
    (∀ (K A : Type) (_ : DecidableEq K) (m : List (K × A)),
       (mapKeys m).Nodup → mapFmap (fun a => a) m = m) := by
  refine ⟨fun A l => by simp [vecFmap], fun A o => by cases o <;> rfl,
          fun K A instK m h => ?_⟩
  have hmap : (m.map fun kv => (kv.1, kv.2)) = m := by
    simp
  rw [mapFmap, hmap, mapCollect_of_nodup m h]

/-- C7 witness: the map conjunct applied to the concrete map
`{1 ↦ 10, 2 ↦ 20}`. -/
theorem fmap_identity_witness :
    (mapKeys [((1 : Nat), (10 : Nat)), (2, 20)]).Nodup ∧
    mapFmap (fun a => a) [((1 : Nat), (10 : Nat)), (2, 20)] = [(1, 10), (2, 20)] :=
  ⟨by decide, fmap_identity.2.2 Nat Nat instDecidableEqNat _ (by decide)⟩

/-- C8: appending the `Monoid` identity on either side is a no-op for the
`String` (concatenation, identity the empty string), `Vec` (concatenation,
identity the empty vector) and `Option` (element append, identity `None`)
adapters. -/
theorem monoid_identity_laws :
    (∀ s : List Char, strAppend s strIdentity = s ∧ strAppend strIdentity s = s) ∧
    (∀ (A : Type) (v : List A), vecAlt v vecIdentity = v ∧ vecAlt vecIdentity v = v) ∧
    (∀ (A : Type) (app : A → A → A) (o : Option A),
       optAppend app o optIdentity = o ∧ optAppend app optIdentity o = o) := by
  refine ⟨fun s => ⟨by simp [strAppend, strIdentity], rfl⟩,
          fun A v => ⟨by simp [vecAlt, vecIdentity], rfl⟩,
          fun A app o => ⟨?_, ?_⟩⟩ <;> cases o <;> rfl

theorem vecSequence_ok_acc (l : List A) (acc : List A) :
    (l.map (Res.ok (E := E))).foldl
      (fun ap a =>
        Res.apply1 (Res.fmap (fun b => (curry2 vecAppendElem |>.call1 b).call1) a) ap)
      (Res.ok acc) = Res.ok (acc ++ l) := by
  induction l generalizing acc with
  | nil => simp
  | cons x xs ih =>
    simp only [List.map_cons, List.foldl_cons]
    have hstep :
        Res.apply1
          (Res.fmap (fun b => (curry2 vecAppendElem |>.call1 b).call1) (Res.ok (E := E) x))
          (Res.ok acc) = Res.ok (acc ++ [x]) := rfl
    rw [hstep, ih (acc ++ [x]), List.append_assoc]
    rfl

theorem vecSequence_err_acc (l : List A) (e : E) :
    (l.map (Res.ok (E := E))).foldl
      (fun ap a =>
        Res.apply1 (Res.fmap (fun b => (curry2 vecAppendElem |>.call1 b).call1) a) ap)
      (Res.err e) = Res.err e := by
  induction l with
  | nil => rfl
  | cons x xs ih =>
    simp only [List.map_cons, List.foldl_cons]
    exact ih

/-- C2: sequencing a `Vec` of `Result`s (the library's `sequence`, i.e.
`traversem1` at the identity, folding with `Result`'s `apply1`) yields `Ok`
of the original vector, elements unchanged and in order, when every element
is `Ok`; and yields the unique `Err` when exactly one element is `Err`,
whatever its position (`xs` elements before it, `ys` elements after it). -/
theorem sequence_vec_result :
    (∀ (E A : Type) (l : List A),
       vecSequence (E := E) (l.map Res.ok) = Res.ok l) ∧
    (∀ (E A : Type) (xs ys : List A) (e : E),
       vecSequence (xs.map Res.ok ++ Res.err e :: ys.map Res.ok) = Res.err e) := by
  constructor
  · intro E A l
    simpa [vecSequence, vecTraversem1, Res.pure] using vecSequence_ok_acc (E := E) l []
  · intro E A xs ys e
    simp only [vecSequence, vecTraversem1, Res.pure, List.foldl_append, List.foldl_cons]
    rw [vecSequence_ok_acc (E := E) xs []]
    have hstep :
        Res.apply1
          (Res.fmap (fun b => (curry2 vecAppendElem |>.call1 b).call1) (Res.err (A := A) e))
          (Res.ok ([] ++ xs)) = Res.err e := rfl
    rw [hstep]
    exact vecSequence_err_acc ys e

/-- C5: `alt` on the map adapters is the left-biased key-union: a key's
value in `m1.alt(m2)` is `m1`'s value when `m1` has the key, otherwise
`m2`'s, for every pair of duplicate-free-key maps; in particular the spec's
example `{a:1, b:2}.alt({b:3, c:4}) = {a:1, b:2, c:4}` (keys encoded as
`a = 1, b = 2, c = 3`), as maps, i.e. pointwise in `mapLookup`. -/
theorem map_alt_left_biased_union :
    (∀ (K V : Type) (_ : DecidableEq K) (m1 m2 : List (K × V)),
       (mapKeys m1).Nodup → (mapKeys m2).Nodup →
       ∀ k, mapLookup k (mapAlt m1 m2) =
         match mapLookup k m1 with
         | some v => some v
         | none => mapLookup k m2) ∧
    (∀ k : Nat,
       mapLookup k (mapAlt [(1, 1), (2, 2)] [(2, 3), (3, 4)]) =
         mapLookup (V := Nat) k [(1, 1), (2, 2), (3, 4)]) := by
  have general :
      ∀ (K V : Type) (_ : DecidableEq K) (m1 m2 : List (K × V)),
        (mapKeys m1).Nodup → (mapKeys m2).Nodup →
        ∀ k, mapLookup k (mapAlt m1 m2) =
          match mapLookup k m1 with
          | some v => some v
          | none => mapLookup k m2 := by
    intro K V instK m1 m2 h1 h2 k
    rw [mapAlt, mapLookup_collect, List.reverse_append, mapLookup_append,
        mapLookup_reverse_of_nodup k m1 h1, mapLookup_reverse_of_nodup k m2 h2]
  refine ⟨general, fun k => ?_⟩
  rw [general Nat Nat instDecidableEqNat [(1, 1), (2, 2)] [(2, 3), (3, 4)]
        (by decide) (by decide) k]
  by_cases h1 : k = 1 <;> by_cases h2 : k = 2 <;> by_cases h3 : k = 3 <;>
    simp [mapLookup, h1, h2, h3]

/-- C5 witness: the general conjunct applied to the spec's example maps at
the shared key `2` (`b`): the left operand's value wins. -/
theorem map_alt_left_biased_union_witness :
    (mapKeys [((1 : Nat), (1 : Nat)), (2, 2)]).Nodup ∧
    mapLookup 2 (mapAlt [((1 : Nat), (1 : Nat)), (2, 2)] [(2, 3), (3, 4)]) = some 2 := by
  refine ⟨by decide, ?_⟩
  rw [map_alt_left_biased_union.1 Nat Nat instDecidableEqNat
        [(1, 1), (2, 2)] [(2, 3), (3, 4)] (by decide) (by decide) 2]
  rfl

theorem mem_keys_applyStep {A B : Type} (fs : List (K × (A → B))) (as_ : List (K × A))
    (cloner : A → A) (k : K)
    (h : k ∈ mapKeys (fs.filterMap fun kf =>
      (mapLookup kf.1 as_).map fun a => (kf.1, kf.2 (cloner a)))) :
    k ∈ mapKeys fs := by
  induction fs with
  | nil => simp [mapKeys] at h
  | cons hd tl ih =>
    obtain ⟨k0, f0⟩ := hd
    simp only [List.filterMap_cons] at h
    cases hl : mapLookup k0 as_ with
    | none =>
      rw [hl] at h
      simp only [Option.map_none'] at h
      exact List.mem_cons_of_mem _ (ih h)
    | some a =>
      rw [hl] at h
      simp only [Option.map_some', mapKeys, List.map_cons, List.mem_cons] at h
      rcases h with h | h
      · simp [mapKeys, h]
      · exact List.mem_cons_of_mem _ (ih (by simpa [mapKeys] using h))

theorem nodup_keys_applyStep {A B : Type} (fs : List (K × (A → B))) (as_ : List (K × A))
    (cloner : A → A) (h : (mapKeys fs).Nodup) :
    (mapKeys (fs.filterMap fun kf =>
      (mapLookup kf.1 as_).map fun a => (kf.1, kf.2 (cloner a)))).Nodup := by
  induction fs with
  | nil => simp [mapKeys]
  | cons hd tl ih =>
    obtain ⟨k0, f0⟩ := hd
    simp only [mapKeys, List.map_cons, List.nodup_cons] at h
    simp only [List.filterMap_cons]
    cases hl : mapLookup k0 as_ with
    | none => exact ih h.2
    | some a =>
      simp only [Option.map_some', mapKeys, List.map_cons, List.nodup_cons]
      refine ⟨fun hmem => ?_, ih h.2⟩
      exact h.1 (by simpa [mapKeys] using mem_keys_applyStep tl as_ cloner k0 hmem)

theorem mapLookup_applyStep {A B : Type} (fs : List (K × (A → B))) (as_ : List (K × A))
    (cloner : A → A) (h : (mapKeys fs).Nodup) (k : K) :
    mapLookup k (fs.filterMap fun kf =>
      (mapLookup kf.1 as_).map fun a => (kf.1, kf.2 (cloner a))) =
      match mapLookup k fs with
      | some f => (mapLookup k as_).map fun a => f (cloner a)
      | none => none := by
  induction fs with
  | nil => simp [mapLookup]
  | cons hd tl ih =>
    obtain ⟨k0, f0⟩ := hd
    simp only [mapKeys, List.map_cons, List.nodup_cons] at h
    simp only [List.filterMap_cons]
    by_cases hk : k = k0
    · subst hk
      cases hl : mapLookup k as_ with
      | none =>
        simp only [Option.map_none']
        rw [mapLookup_eq_none_of_not_mem k _ fun hmem =>
          h.1 (by simpa [mapKeys] using mem_keys_applyStep tl as_ cloner k hmem)]
        simp [mapLookup, hl]
      | some a =>
        simp [mapLookup, hl]
    · cases hl : mapLookup k0 as_ with
      | none =>
        simp only [Option.map_none']
        rw [ih h.2]
        simp [mapLookup, hk]
      | some a =>
        simp only [Option.map_some', mapLookup, if_neg hk]
        rw [ih h.2]

/-- C9: applying a map of functions to a map of arguments via `apply_with`
yields a map whose keys are exactly those present in both operands, the
value at such a key being the function at that key applied to the cloned
argument at that key; keys present in only one operand are dropped.
(Key-column duplicate-freeness of the function map is the invariant every
Rust map maintains.) -/
theorem map_apply_with_key_intersection :
    ∀ (K A B : Type) (_ : DecidableEq K) (fs : List (K × (A → B)))
      (as_ : List (K × A)) (cloner : A → A),
      (mapKeys fs).Nodup →
      ∀ k, mapLookup k (mapApplyWith fs as_ cloner) =
        match mapLookup k fs, mapLookup k as_ with
        | some f, some a => some (f (cloner a))
        | _, _ => none := by
  intro K A B instK fs as_ cloner h k
  rw [mapApplyWith, mapLookup_collect,
      mapLookup_reverse_of_nodup k _ (nodup_keys_applyStep fs as_ cloner h),
      mapLookup_applyStep fs as_ cloner h k]
  cases mapLookup k fs <;> cases mapLookup k as_ <;> rfl

/-- C9 witness: function map `{1 ↦ (+1)}`, argument map `{1 ↦ 10, 2 ↦ 5}`,
identity cloner: the shared key `1` maps to `11`, and key `2` (argument
only) is dropped. -/
theorem map_apply_with_key_intersection_witness :
    (mapKeys [((1 : Nat), fun n : Nat => n + 1)]).Nodup ∧
    mapLookup 1 (mapApplyWith [((1 : Nat), fun n : Nat => n + 1)]
      [(1, 10), (2, 5)] (fun a => a)) = some 11 ∧
    mapLookup 2 (mapApplyWith [((1 : Nat), fun n : Nat => n + 1)]
      [(1, 10), (2, 5)] (fun a => a)) = none := by
  refine ⟨by decide, ?_, ?_⟩
  · rw [map_apply_with_key_intersection Nat Nat Nat instDecidableEqNat
        [(1, fun n : Nat => n + 1)] [(1, 10), (2, 5)] (fun a => a) (by decide) 1]
    rfl
  · rw [map_apply_with_key_intersection Nat Nat Nat instDecidableEqNat
        [(1, fun n : Nat => n + 1)] [(1, 10), (2, 5)] (fun a => a) (by decide) 2]
    rfl

/-- C3: executing an `Apply` node first executes the function-producing
node (appending its trace `LF` to the log and yielding the function `g`),
then executes the argument node (appending its trace `LA` and yielding the
argument `a`), and only then invokes the obtained function on the obtained
argument in the resulting state — for any predecessor node types and `exec`
dictionaries. -/
theorem apply_exec_function_first :
    ∀ (νf να : Type)
      (exF : νf → List Nat → (Nat → List Nat → Nat × List Nat) × List Nat)
      (exA : να → List Nat → Nat × List Nat)
      (nf : νf) (na : να) (LF LA : List Nat)
      (g : Nat → List Nat → Nat × List Nat) (a : Nat),
      (∀ s, exF nf s = (g, s ++ LF)) →
      (∀ s, exA na s = (a, s ++ LA)) →
      ∀ s, ApplyNode.exec exF exA ⟨nf, na⟩ s = g a (s ++ LF ++ LA) := by
  intro νf να exF exA nf na LF LA g a hF hA s
  simp [ApplyNode.exec, hF, hA]

/-- C3 witness: both nodes are `Suspend`s; the function node's thunk (tag 1)
runs before the argument node's (tag 2), and the obtained function (tag 3)
runs last. -/
theorem apply_exec_function_first_witness :
    (∀ s, Suspend.exec ⟨logThunk 1 (logFn 3 (fun n : Nat => n + 1))⟩ s
        = (logFn 3 (fun n : Nat => n + 1), s ++ [1])) ∧
    ApplyNode.exec Suspend.exec Suspend.exec
      ⟨⟨logThunk 1 (logFn 3 (fun n : Nat => n + 1))⟩, ⟨logThunk 2 5⟩⟩ []
      = (6, [1, 2, 3]) := by
  refine ⟨fun s => rfl, ?_⟩
  have h := apply_exec_function_first
    (Suspend (List Nat) (Nat → List Nat → Nat × List Nat)) (Suspend (List Nat) Nat)
    Suspend.exec Suspend.exec
    ⟨logThunk 1 (logFn 3 (fun n => n + 1))⟩ ⟨logThunk 2 5⟩
    [1] [2] (logFn 3 (fun n => n + 1)) 5 (fun s => rfl) (fun s => rfl) []
  simpa [logFn] using h

/-- C1: the lazy engine's nodes are plain data — constructing a chain never
touches the state (every statement below holds for an arbitrary prior log
`s`, which construction leaves untouched and `exec` extends) — and
executing a chain invokes each wrapped thunk / transformation function
exactly once, predecessor before successor:

* a `Suspend` appends exactly its thunk's tag;
* a `Map` node appends its predecessor's full trace, then its own
  function's tag, once;
* a `Bind` node appends its predecessor's trace, then its node-producing
  function's tag, then the trace of the node that function returned;
* an `Apply` node appends the function node's trace, then the argument
  node's trace, then the obtained function's tag;
* the spec's representative `suspend → map_ → bind_ → apply_` chain
  (thunk 0, map fn 1, bind fn 2 returning suspended thunk 3, applied to
  suspended thunk 4, obtained function 5) appends exactly
  `[0, 1, 2, 3, 4, 5]`. -/
theorem lazy_exec_each_effect_once_in_order :
    (∀ (i v : Nat) (s : List Nat),
       Suspend.exec ⟨logThunk i v⟩ s = (v, s ++ [i])) ∧
    (∀ (ν : Type) (ex : ν → List Nat → Nat × List Nat) (n : ν) (L : List Nat) (a : Nat),
       (∀ s, ex n s = (a, s ++ L)) →
       ∀ (i : Nat) (g : Nat → Nat) (s : List Nat),
         MapNode.exec ex ⟨logFn i g, n⟩ s = (g a, s ++ L ++ [i])) ∧
    (∀ (ν μ : Type) (exPred : ν → List Nat → Nat × List Nat)
       (exSub : μ → List Nat → Nat × List Nat)
       (n : ν) (L1 : List Nat) (a : Nat),
       (∀ s, exPred n s = (a, s ++ L1)) →
       ∀ (m0 : μ) (L2 : List Nat) (b : Nat),
         (∀ s, exSub m0 s = (b, s ++ L2)) →
         ∀ (i : Nat) (s : List Nat),
           BindNode.exec exPred exSub ⟨fun _ s => (m0, s ++ [i]), n⟩ s
             = (b, s ++ L1 ++ [i] ++ L2)) ∧
    (∀ (νf να : Type)
       (exF : νf → List Nat → (Nat → List Nat → Nat × List Nat) × List Nat)
       (exA : να → List Nat → Nat × List Nat)
       (nf : νf) (na : να) (LF LA : List Nat) (j : Nat) (kf : Nat → Nat) (a : Nat),
       (∀ s, exF nf s = (logFn j kf, s ++ LF)) →
       (∀ s, exA na s = (a, s ++ LA)) →
       ∀ s, ApplyNode.exec exF exA ⟨nf, na⟩ s = (kf a, s ++ LF ++ LA ++ [j])) ∧
    (∀ s : List Nat,
       ApplyNode.exec
         (MapNode.exec (BindNode.exec (MapNode.exec Suspend.exec) Suspend.exec))
         Suspend.exec
         (ApplyNode.mk
           (MapNode.mk (fun a s => (logFn 5 (fun b => a + b), s))
             (BindNode.mk (fun a s => (Suspend.mk (logThunk 3 (a * 2)), s ++ [2]))
               (MapNode.mk (logFn 1 (fun x => x + 1))
                 (Suspend.mk (logThunk 0 10)))))
           (Suspend.mk (logThunk 4 100))) s
         = (122, s ++ [0, 1, 2, 3, 4, 5])) := by
  refine ⟨fun i v s => rfl, ?_, ?_, ?_, ?_⟩
  · intro ν ex n L a hex i g s
    simp [MapNode.exec, hex, logFn]
  · intro ν μ exPred exSub n L1 a hPred m0 L2 b hSub i s
    simp [BindNode.exec, hPred, hSub]
  · intro νf να exF exA nf na LF LA j kf a hF hA s
    simp [ApplyNode.exec, hF, hA, logFn]
  · intro s
    simp [ApplyNode.exec, MapNode.exec, BindNode.exec, Suspend.exec, logThunk, logFn]

/-- C1 witness: the `Map` conjunct applied to a concrete `Suspend`
predecessor — thunk 0 runs first, map function 1 runs second, each once. -/
theorem lazy_exec_each_effect_once_in_order_witness :
    (∀ s, Suspend.exec ⟨logThunk 0 7⟩ s = (7, s ++ [0])) ∧
    MapNode.exec Suspend.exec ⟨logFn 1 (fun x : Nat => x + 1), Suspend.mk (logThunk 0 7)⟩ []
      = (8, [0, 1]) := by
  refine ⟨fun s => rfl, ?_⟩
  have h := lazy_exec_each_effect_once_in_order.2.1 (Suspend (List Nat) Nat) Suspend.exec
    (Suspend.mk (logThunk 0 7)) [0] 7 (fun s => rfl) 1 (fun x => x + 1) []
  simpa using h

/-- C10: the optional-value adapter's `Semigroup::append` never discards a
present value: both-present combines the elements with the element
semigroup, one-present keeps it (on either side), and both-absent stays
`None`. -/
theorem option_append_shape :
    ∀ (A : Type) (app : A → A → A) (a b : A),
      optAppend app (some a) (some b) = some (app a b) ∧
      optAppend app (some a) none = some a ∧
      optAppend app none (some b) = some b ∧
      optAppend app (none : Option A) none = none :=
  fun _ _ _ _ => ⟨rfl, rfl, rfl, rfl⟩

end Naan
